import Mathlib

/-!
Shallow embedding of `scripts/data_generator.py`: the Barabási–Albert
graph builder `fast_ba_prealloc` and the canonicalize/write pipeline
`generate_and_save`.

Modelling conventions:
* numpy arrays become Lean lists; an array with a fill pointer
  (`reservoir[:r_ptr]`, `edges_u[:e_ptr]`) is modelled as the filled
  prefix only, so the fill pointer is the list length.  Capacity
  pre-allocation and `np.resize` doubling are memory-layout details with
  no observable effect on the produced values and are not modelled.
* the numpy random generator is modelled as an explicit oracle argument.
  `rng.choice(reservoir[:r_ptr], size=m, replace=...)` draws `m` array
  *positions* (without replacement when `replace=False`) and returns the
  values stored there; the oracle supplies the drawn positions and
  `ValidDraw` states the constraint the library guarantees for them.
  Attribute dates are likewise drawn from an oracle indexed by row.
* `raise ValueError` becomes `Except.error`.
-/

/-- `m = max(1, avg_friends // 2)` as computed in `generate_and_save`. -/
def emm (avgFriends : ℕ) : ℕ := max 1 (avgFriends / 2)

/-- The initial complete-graph stub list of `fast_ba_prealloc`:
`for i in range(k): for j in range(i+1, k): emit (i, j)`. -/
def cliqueStubs (k : ℕ) : List (ℕ × ℕ) :=
  (List.range k).flatMap (fun i => (List.range' (i + 1) (k - (i + 1))).map (fun j => (i, j)))

/-- `deg[i] += 1` on the degree array (`List.set` is a no-op out of range,
matching that all touched indices are `< n` in the source). -/
def bumpDeg (d : List ℕ) (i : ℕ) : List ℕ := d.set i (d.getD i 0 + 1)

/-- The degree array after the initial clique: `deg = zeros(n)` followed by
`deg[i] += 1; deg[j] += 1` for every initial edge `(i, j)`. -/
def initDeg (n m : ℕ) : List ℕ :=
  (cliqueStubs (m + 1)).foldl (fun d p => bumpDeg (bumpDeg d p.1) p.2) (List.replicate n 0)

/-- The reservoir seeded from the initial degrees:
`for node in range(init_nodes): reservoir[r_ptr:r_ptr+d] = node`. -/
def initReservoir (d : List ℕ) (initNodes : ℕ) : List ℕ :=
  (List.range initNodes).flatMap (fun node => List.replicate (d.getD node 0) node)

/-- The mutable state of `fast_ba_prealloc`'s growth loop: the emitted stub
prefix `edges_u/edges_v[:e_ptr]`, the degree array `deg`, the filled
reservoir prefix `reservoir[:r_ptr]`, and a flag recording whether the
`replace=True` fallback branch was ever taken. -/
structure BAState where
  stubs : List (ℕ × ℕ)
  deg : List ℕ
  reservoir : List ℕ
  fallback : Bool
deriving DecidableEq

/-- State right before the growth loop of `fast_ba_prealloc`. -/
def initState (n m : ℕ) : BAState :=
  { stubs := cliqueStubs (m + 1)
    deg := initDeg n m
    reservoir := initReservoir (initDeg n m) (m + 1)
    fallback := false }

/-- `rng.choice(reservoir[:r_ptr], size=m, ...)`: the drawn positions `idxs`
index into the reservoir prefix and the drawn values are the entries there. -/
def sampleTargets (res : List ℕ) (idxs : List ℕ) : List ℕ :=
  idxs.map (fun i => res.getD i 0)

/-- What numpy guarantees about the `m` positions drawn by
`rng.choice(arr[:r], size=m, replace=False/True)`: there are `m` of them,
they are in range, and when `r >= m` (the `replace=False` branch) they are
pairwise distinct.  Nothing forces the *values* at distinct positions to be
distinct. -/
def ValidDraw (m r : ℕ) (idxs : List ℕ) : Prop :=
  idxs.length = m ∧ (∀ i ∈ idxs, i < r) ∧ (m ≤ r → idxs.Nodup)

instance (m r : ℕ) (idxs : List ℕ) : Decidable (ValidDraw m r idxs) :=
  inferInstanceAs (Decidable (idxs.length = m ∧ (∀ i ∈ idxs, i < r) ∧ (m ≤ r → idxs.Nodup)))

/-- One iteration of the growth loop of `fast_ba_prealloc` for `new_node`,
given the positions drawn by the sampler: emit the stubs
`(new_node, target)`, set `deg[new_node] = m`, bump `deg[t]` once per drawn
target occurrence, and append `new_node` `m` times plus the targets to the
reservoir.  The fallback flag records the branch on `r_ptr >= m`. -/
def growStep (m : ℕ) (s : BAState) (newNode : ℕ) (idxs : List ℕ) : BAState :=
  { stubs := s.stubs ++ (sampleTargets s.reservoir idxs).map (fun t => (newNode, t))
    deg := (sampleTargets s.reservoir idxs).foldl bumpDeg (s.deg.set newNode m)
    reservoir := s.reservoir ++ List.replicate m newNode ++ sampleTargets s.reservoir idxs
    fallback := s.fallback || !(decide (m ≤ s.reservoir.length)) }

/-- The node identifiers visited by the growth loop:
`for new_node in range(init_nodes, n)`. -/
def growthNodes (n m : ℕ) : List ℕ := List.range' (m + 1) (n - (m + 1))

/-- The state after the first `k` iterations of the growth loop. -/
def stateAfter (n m : ℕ) (oracle : ℕ → List ℕ) (k : ℕ) : BAState :=
  (List.range' (m + 1) k).foldl (fun s v => growStep m s v (oracle v)) (initState n m)

/-- The full growth loop: all `n - (m+1)` iterations. -/
def buildBA (n m : ℕ) (oracle : ℕ → List ℕ) : BAState :=
  stateAfter n m oracle (n - (m + 1))

/-- `fast_ba_prealloc(n, m)`: `raise ValueError("n must be > m")` when
`n <= m`, else run the construction. -/
def fastBA (n m : ℕ) (oracle : ℕ → List ℕ) : Except String BAState :=
  if n ≤ m then .error "n must be > m" else .ok (buildBA n m oracle)

/-- Lexicographic "less or equal" on pairs: the total order realised by
`np.lexsort((pairs[:,1], pairs[:,0]))` (primary key `u`, secondary `v`). -/
def LexLe (p q : ℕ × ℕ) : Prop := p.1 < q.1 ∨ (p.1 = q.1 ∧ p.2 ≤ q.2)

instance : DecidableRel LexLe := fun p q =>
  inferInstanceAs (Decidable (p.1 < q.1 ∨ (p.1 = q.1 ∧ p.2 ≤ q.2)))

instance : IsTotal (ℕ × ℕ) LexLe where
  total p q := by unfold LexLe; omega

instance : IsTrans (ℕ × ℕ) LexLe where
  trans p q r := by unfold LexLe; omega

instance : IsAntisymm (ℕ × ℕ) LexLe where
  antisymm p q := by
    unfold LexLe
    intro h h'
    have : p.1 = q.1 ∧ p.2 = q.2 := by omega
    exact Prod.ext this.1 this.2

/-- Strict lexicographic order on pairs: sorted-ascending-and-all-distinct. -/
def LexLt (p q : ℕ × ℕ) : Prop := p.1 < q.1 ∨ (p.1 = q.1 ∧ p.2 < q.2)

instance : DecidableRel LexLt := fun p q =>
  inferInstanceAs (Decidable (p.1 < q.1 ∨ (p.1 = q.1 ∧ p.2 < q.2)))

/-- Step 1 of the canonicalizer: `u = minimum(a, b); v = maximum(a, b)`. -/
def canonPairs (stubs : List (ℕ × ℕ)) : List (ℕ × ℕ) :=
  stubs.map (fun p => (min p.1 p.2, max p.1 p.2))

/-- Step 2 of the canonicalizer: `mask = u != v` (self-loop removal). -/
def maskPairs (l : List (ℕ × ℕ)) : List (ℕ × ℕ) :=
  l.filter (fun p => p.1 ≠ p.2)

/-- Adjacent-row deduplication after the sort, continuation: `keep[i]` holds
iff row `i` differs from row `i-1` (comparison is always against the
immediate predecessor row, not the last kept row). -/
def dropAdjDupAux : (ℕ × ℕ) → List (ℕ × ℕ) → List (ℕ × ℕ)
  | _, [] => []
  | prev, y :: ys => if y = prev then dropAdjDupAux y ys else y :: dropAdjDupAux y ys

/-- Step 4 of the canonicalizer:
`keep = concatenate(([True], any(pairs[1:] != pairs[:-1], axis=1)))`. -/
def dropAdjDup : List (ℕ × ℕ) → List (ℕ × ℕ)
  | [] => []
  | x :: xs => x :: dropAdjDupAux x xs

/-- The whole canonicalization pass of `generate_and_save`:
min/max map, self-loop mask, lexicographic sort, adjacent unique. -/
def canonicalize (stubs : List (ℕ × ℕ)) : List (ℕ × ℕ) :=
  dropAdjDup (List.insertionSort LexLe (maskPairs (canonPairs stubs)))

/-- The `metadata.json` record of `generate_and_save`. -/
structure Metadata where
  num_users : ℕ
  num_friendships : ℕ
  avg_degree : ℚ
deriving DecidableEq

/-- One observable write performed on the output directory while streaming
`friendships.csv` and `metadata.json`. -/
inductive WriteEvent where
  | chunk (rows : List (ℕ × ℕ × ℕ))
  | metadataWrite (md : Metadata)
deriving DecidableEq

/-- Split a list into consecutive chunks, mirroring
`while chunk_st < num_pairs: chunk = unique_pairs[chunk_st:chunk_en]`.
(The source loops forever when `chunk_size = 0`; the model requires
`chunkSize ≥ 1` for its chunk boundaries to match the source.) -/
def chunkSplit {α : Type} (chunkSize : ℕ) : List α → List (List α)
  | [] => []
  | x :: xs => ((x :: xs).take chunkSize) :: chunkSplit chunkSize (xs.drop (chunkSize - 1))
termination_by l => l.length
decreasing_by
  simp only [List.length_drop, List.length_cons]
  omega

/-- `generate_and_save(n, avg_friends, ...)`: run the builder, canonicalize,
attach a `since` date (drawn from the attribute oracle, indexed by row) to
every unique pair, and emit the write trace: the `friendships.csv` chunks in
order followed by the single `metadata.json` write.  Returns the trace and
the metadata record; propagates the builder's failure. -/
def generateAndSave (n avgFriends chunkSize : ℕ) (oracle : ℕ → List ℕ)
    (dateOracle : ℕ → ℕ) : Except String (List WriteEvent × Metadata) :=
  match fastBA n (emm avgFriends) oracle with
  | .error e => .error e
  | .ok s =>
    let uniquePairs := canonicalize s.stubs
    let rows := uniquePairs.enum.map (fun ip => (ip.2.1, ip.2.2, dateOracle ip.1))
    let md : Metadata :=
      { num_users := n
        num_friendships := uniquePairs.length
        avg_degree := 2 * (uniquePairs.length : ℚ) / (n : ℚ) }
    .ok ((chunkSplit chunkSize rows).map WriteEvent.chunk ++ [WriteEvent.metadataWrite md], md)

/-- Occurrence count of a node in a stub list (as endpoint of either side). -/
def stubOcc (x : ℕ) (l : List (ℕ × ℕ)) : ℕ :=
  l.countP (fun p => p.1 = x) + l.countP (fun p => p.2 = x)

/-- Sum of a function over `List.range`, as a `Finset` sum. -/
theorem listSumRange (f : ℕ → ℕ) : ∀ n, ((List.range n).map f).sum = ∑ i ∈ Finset.range n, f i
  | 0 => by simp
  | n + 1 => by
    rw [List.range_succ, List.map_append, List.sum_append, Finset.sum_range_succ,
      listSumRange f n]
    simp

/-- Members of a prefix of the clique double loop: first component below the
outer counter, strictly increasing pair, bounded by the clique size. -/
theorem mem_cliqueFlat {k j : ℕ} {p : ℕ × ℕ}
    (h : p ∈ (List.range j).flatMap
      (fun i => (List.range' (i + 1) (k - (i + 1))).map (fun jj => (i, jj)))) :
    p.1 < j ∧ p.1 < p.2 ∧ p.2 < k := by
  rcases List.mem_flatMap.1 h with ⟨i, hi, hp⟩
  rcases List.mem_map.1 hp with ⟨jj, hjj, rfl⟩
  rcases List.mem_range'.1 hjj with ⟨t, ht, rfl⟩
  simp only [List.mem_range] at hi
  refine ⟨hi, ?_, ?_⟩ <;> simp <;> omega

/-- Every initial-clique stub `(i, j)` satisfies `i < j < k`. -/
theorem mem_cliqueStubs {k : ℕ} {p : ℕ × ℕ} (h : p ∈ cliqueStubs k) :
    p.1 < p.2 ∧ p.2 < k :=
  (mem_cliqueFlat h).2

/-- Prefixes of the clique double loop are strictly lexicographically sorted. -/
theorem pairwise_cliqueFlat (k : ℕ) :
    ∀ j, List.Pairwise LexLt ((List.range j).flatMap
      (fun i => (List.range' (i + 1) (k - (i + 1))).map (fun jj => (i, jj))))
  | 0 => by simp
  | j + 1 => by
    rw [List.range_succ, List.flatMap_append, List.pairwise_append]
    refine ⟨pairwise_cliqueFlat k j, ?_, ?_⟩
    · simp only [List.flatMap_cons, List.flatMap_nil, List.append_nil]
      rw [List.pairwise_map]
      have h1 : List.Pairwise (· < ·) (List.range' (j + 1) (k - (j + 1))) := by
        rw [List.range'_eq_map_range, List.pairwise_map]
        exact (List.pairwise_lt_range _).imp (fun hab => by omega)
      exact h1.imp (fun hab => Or.inr ⟨rfl, hab⟩)
    · intro a ha b hb
      have ha' := mem_cliqueFlat ha
      simp only [List.flatMap_cons, List.flatMap_nil, List.append_nil] at hb
      rcases List.mem_map.1 hb with ⟨jj, _, rfl⟩
      exact Or.inl (by omega)

/-- The clique stub list is strictly lexicographically sorted. -/
theorem cliqueStubs_pairwise (k : ℕ) : List.Pairwise LexLt (cliqueStubs k) :=
  pairwise_cliqueFlat k k

/-- The clique on `k` nodes has `k * (k - 1) / 2` stubs. -/
theorem cliqueStubs_length_mul_two (k : ℕ) :
    2 * (cliqueStubs k).length = k * (k - 1) := by
  unfold cliqueStubs
  rw [List.length_flatMap]
  have h1 : List.map (List.length ∘ fun i =>
      (List.range' (i + 1) (k - (i + 1))).map (fun jj => ((i : ℕ), jj))) (List.range k) =
      List.map (fun i => k - 1 - i) (List.range k) := by
    apply List.map_congr_left
    intro a _
    simp [List.length_range']
    omega
  rw [h1, listSumRange]
  rw [Finset.sum_range_reflect (fun i => i) k]
  have h2 := Finset.sum_range_id_mul_two k
  omega

/-- Lexicographic order is antisymmetric. -/
theorem lexLe_antisymm {p q : ℕ × ℕ} (h : LexLe p q) (h' : LexLe q p) : p = q := by
  unfold LexLe at h h'
  have : p.1 = q.1 ∧ p.2 = q.2 := by omega
  exact Prod.ext this.1 this.2

/-- Lexicographic order is transitive. -/
theorem lexLe_trans {p q r : ℕ × ℕ} (h : LexLe p q) (h' : LexLe q r) : LexLe p r := by
  unfold LexLe at h h' ⊢
  omega

/-- A non-strict lexicographic comparison between distinct pairs is strict. -/
theorem lexLt_of_lexLe_ne {p q : ℕ × ℕ} (h : LexLe p q) (hne : p ≠ q) : LexLt p q := by
  have hne' : p.1 ≠ q.1 ∨ p.2 ≠ q.2 := by
    by_contra hc
    push_neg at hc
    exact hne (Prod.ext hc.1 hc.2)
  unfold LexLe at h
  unfold LexLt
  omega

/-- Strict lexicographic order is irreflexive on components. -/
theorem lexLt_ne {p q : ℕ × ℕ} (h : LexLt p q) : p ≠ q := by
  intro hc
  subst hc
  unfold LexLt at h
  omega

/-- Strict implies non-strict. -/
theorem lexLe_of_lexLt {p q : ℕ × ℕ} (h : LexLt p q) : LexLe p q := by
  unfold LexLt at h
  unfold LexLe
  omega

/-- Adjacent deduplication only keeps rows of the input. -/
theorem mem_dropAdjDupAux :
    ∀ (l : List (ℕ × ℕ)) (prev z : ℕ × ℕ), z ∈ dropAdjDupAux prev l → z ∈ l
  | [], _, _, h => by simp [dropAdjDupAux] at h
  | y :: ys, prev, z, h => by
    simp only [dropAdjDupAux] at h
    split at h
    · exact List.mem_cons_of_mem y (mem_dropAdjDupAux ys y z h)
    · rcases List.mem_cons.1 h with h' | h'
      · exact h' ▸ List.mem_cons_self y ys
      · exact List.mem_cons_of_mem y (mem_dropAdjDupAux ys y z h')

/-- Adjacent deduplication does not lengthen the list. -/
theorem length_dropAdjDupAux :
    ∀ (l : List (ℕ × ℕ)) (prev : ℕ × ℕ), (dropAdjDupAux prev l).length ≤ l.length
  | [], _ => le_refl _
  | y :: ys, prev => by
    simp only [dropAdjDupAux]
    split
    · exact le_trans (length_dropAdjDupAux ys y) (Nat.le_succ _)
    · simpa using length_dropAdjDupAux ys y

/-- On a sorted tail whose rows all dominate `prev`, adjacent deduplication
produces a strictly sorted list of rows strictly above `prev`. -/
theorem dropAdjDupAux_sorted :
    ∀ (l : List (ℕ × ℕ)) (prev : ℕ × ℕ), List.Pairwise LexLe l → (∀ y ∈ l, LexLe prev y) →
      List.Pairwise LexLt (dropAdjDupAux prev l) ∧
        ∀ z ∈ dropAdjDupAux prev l, LexLe prev z ∧ z ≠ prev
  | [], _, _, _ => by simp [dropAdjDupAux]
  | y :: ys, prev, hp, hd => by
    rcases List.pairwise_cons.1 hp with ⟨hy, hys⟩
    simp only [dropAdjDupAux]
    split
    · rename_i heq
      rcases dropAdjDupAux_sorted ys y hys hy with ⟨h1, h2⟩
      refine ⟨h1, ?_⟩
      intro z hz
      rw [← heq]
      exact h2 z hz
    · rename_i hne
      rcases dropAdjDupAux_sorted ys y hys hy with ⟨h1, h2⟩
      constructor
      · refine List.pairwise_cons.2 ⟨?_, h1⟩
        intro z hz
        exact lexLt_of_lexLe_ne (h2 z hz).1 (Ne.symm (h2 z hz).2)
      · intro z hz
        rcases List.mem_cons.1 hz with h' | h'
        · subst h'
          exact ⟨hd z (List.mem_cons_self z ys), hne⟩
        · rcases h2 z h' with ⟨hz1, hz2⟩
          refine ⟨lexLe_trans (hd y (List.mem_cons_self y ys)) hz1, ?_⟩
          intro hc
          subst hc
          exact hz2 (lexLe_antisymm hz1 (hd y (List.mem_cons_self y ys))).symm

/-- Adjacent deduplication of a lexicographically sorted list is strictly
sorted: rows are ascending and pairwise distinct. -/
theorem dropAdjDup_sorted {l : List (ℕ × ℕ)} (h : List.Pairwise LexLe l) :
    List.Pairwise LexLt (dropAdjDup l) := by
  cases l with
  | nil => simp [dropAdjDup]
  | cons x xs =>
    rcases List.pairwise_cons.1 h with ⟨hx, hxs⟩
    rcases dropAdjDupAux_sorted xs x hxs hx with ⟨h1, h2⟩
    refine List.pairwise_cons.2 ⟨?_, h1⟩
    intro z hz
    exact lexLt_of_lexLe_ne (h2 z hz).1 (Ne.symm (h2 z hz).2)

/-- Adjacent deduplication only keeps rows of the input. -/
theorem mem_dropAdjDup {l : List (ℕ × ℕ)} {z : ℕ × ℕ} (h : z ∈ dropAdjDup l) : z ∈ l := by
  cases l with
  | nil => simp [dropAdjDup] at h
  | cons x xs =>
    simp only [dropAdjDup] at h
    rcases List.mem_cons.1 h with h' | h'
    · exact h' ▸ List.mem_cons_self x xs
    · exact List.mem_cons_of_mem x (mem_dropAdjDupAux xs x z h')

/-- Adjacent deduplication does not lengthen the list. -/
theorem length_dropAdjDup (l : List (ℕ × ℕ)) : (dropAdjDup l).length ≤ l.length := by
  cases l with
  | nil => simp [dropAdjDup]
  | cons x xs => simpa [dropAdjDup] using length_dropAdjDupAux xs x

/-- Adjacent deduplication is the identity when no two adjacent rows are equal. -/
theorem dropAdjDupAux_eq_self :
    ∀ (l : List (ℕ × ℕ)) (prev : ℕ × ℕ), List.Chain' (· ≠ ·) (prev :: l) →
      dropAdjDupAux prev l = l
  | [], _, _ => rfl
  | y :: ys, prev, h => by
    rcases List.chain'_cons.1 h with ⟨h1, h2⟩
    simp only [dropAdjDupAux, if_neg (Ne.symm h1)]
    rw [dropAdjDupAux_eq_self ys y h2]

/-- Adjacent deduplication is the identity on lists without adjacent equal rows. -/
theorem dropAdjDup_eq_self {l : List (ℕ × ℕ)} (h : List.Chain' (· ≠ ·) l) :
    dropAdjDup l = l := by
  cases l with
  | nil => rfl
  | cons x xs => simp only [dropAdjDup]; rw [dropAdjDupAux_eq_self xs x h]

/-- Every row surviving the canonicalizer has `low < high`. -/
theorem mem_canonicalize_lt {l : List (ℕ × ℕ)} {p : ℕ × ℕ} (h : p ∈ canonicalize l) :
    p.1 < p.2 := by
  unfold canonicalize at h
  have h1 := mem_dropAdjDup h
  rw [List.mem_insertionSort] at h1
  unfold maskPairs at h1
  rcases List.mem_filter.1 h1 with ⟨h2, h3⟩
  unfold canonPairs at h2
  rcases List.mem_map.1 h2 with ⟨q, _, rfl⟩
  simp only [ne_eq, decide_not, Bool.not_eq_eq_eq_not, Bool.not_true, decide_eq_false_iff_not] at h3
  simp only []
  omega

/-- The canonicalizer output is strictly lexicographically sorted. -/
theorem canonicalize_sorted (l : List (ℕ × ℕ)) : List.Pairwise LexLt (canonicalize l) := by
  unfold canonicalize
  exact dropAdjDup_sorted (List.sorted_insertionSort LexLe _)

/-- The canonicalizer never produces more rows than raw stubs. -/
theorem canonicalize_length_le (l : List (ℕ × ℕ)) : (canonicalize l).length ≤ l.length := by
  unfold canonicalize
  calc (dropAdjDup (List.insertionSort LexLe (maskPairs (canonPairs l)))).length
      ≤ (List.insertionSort LexLe (maskPairs (canonPairs l))).length := length_dropAdjDup _
    _ = (maskPairs (canonPairs l)).length := (List.perm_insertionSort LexLe _).length_eq
    _ ≤ (canonPairs l).length := List.length_filter_le _ _
    _ = l.length := List.length_map _ _

/-- The clique stub list is a fixed point of the canonicalizer: it is already
canonical, self-loop-free, sorted and duplicate-free. -/
theorem canonicalize_cliqueStubs (k : ℕ) : canonicalize (cliqueStubs k) = cliqueStubs k := by
  have hmem : ∀ p ∈ cliqueStubs k, p.1 < p.2 := fun p hp => (mem_cliqueStubs hp).1
  have h1 : canonPairs (cliqueStubs k) = cliqueStubs k := by
    unfold canonPairs
    have hid : ∀ p ∈ cliqueStubs k, (min p.1 p.2, max p.1 p.2) = id p := by
      intro p hp
      have h := hmem p hp
      have hmin : min p.1 p.2 = p.1 := by omega
      have hmax : max p.1 p.2 = p.2 := by omega
      simp [hmin, hmax]
    rw [List.map_congr_left hid, List.map_id]
  have h2 : maskPairs (cliqueStubs k) = cliqueStubs k := by
    unfold maskPairs
    rw [List.filter_eq_self]
    intro p hp
    have h := Nat.ne_of_lt (hmem p hp)
    simp [h]
  have h3 : List.insertionSort LexLe (cliqueStubs k) = cliqueStubs k :=
    List.Sorted.insertionSort_eq ((cliqueStubs_pairwise k).imp (fun h => lexLe_of_lexLt h))
  have h4 : dropAdjDup (cliqueStubs k) = cliqueStubs k :=
    dropAdjDup_eq_self (((cliqueStubs_pairwise k).imp (fun h => lexLt_ne h)).chain')
  unfold canonicalize
  rw [h1, h2, h3, h4]

/-- `getD` after an in-range `set` at the same index. -/
theorem getD_set_self {d : List ℕ} {i v : ℕ} (h : i < d.length) :
    (d.set i v).getD i 0 = v := by
  rw [List.getD_eq_getElem?_getD, List.getElem?_set_self h]
  rfl

/-- `getD` after a `set` at a different index. -/
theorem getD_set_ne {d : List ℕ} {i j v : ℕ} (h : i ≠ j) :
    (d.set i v).getD j 0 = d.getD j 0 := by
  rw [List.getD_eq_getElem?_getD, List.getElem?_set_ne h, ← List.getD_eq_getElem?_getD]

/-- A bump only changes the bumped in-range entry, by one. -/
theorem getD_bumpDeg (d : List ℕ) (i x : ℕ) :
    (bumpDeg d i).getD x 0 = d.getD x 0 + if i = x ∧ i < d.length then 1 else 0 := by
  unfold bumpDeg
  by_cases hix : i = x
  · subst hix
    by_cases hlen : i < d.length
    · rw [getD_set_self hlen]
      simp [hlen]
    · rw [List.set_eq_of_length_le (Nat.le_of_not_lt hlen)]
      simp [hlen]
  · rw [getD_set_ne hix]
    simp [hix]

/-- Bumping preserves the array length. -/
theorem length_bumpDeg (d : List ℕ) (i : ℕ) : (bumpDeg d i).length = d.length :=
  List.length_set ..

/-- Folding single bumps over a target list adds each target's occurrence
count to its degree, provided all targets are in range. -/
theorem getD_foldl_bumpDeg :
    ∀ (l : List ℕ) (d : List ℕ) (x : ℕ), (∀ t ∈ l, t < d.length) →
      (l.foldl bumpDeg d).getD x 0 = d.getD x 0 + l.count x
  | [], _, _, _ => by simp
  | t :: ts, d, x, hb => by
    have ht : t < d.length := hb t (List.mem_cons_self t ts)
    have hb' : ∀ u ∈ ts, u < (bumpDeg d t).length := by
      intro u hu
      rw [length_bumpDeg]
      exact hb u (List.mem_cons_of_mem t hu)
    simp only [List.foldl_cons]
    rw [getD_foldl_bumpDeg ts (bumpDeg d t) x hb', getD_bumpDeg, List.count_cons]
    by_cases htx : t = x
    · subst htx
      simp [ht]
      omega
    · simp [htx]

/-- Folding single bumps preserves the array length. -/
theorem length_foldl_bumpDeg :
    ∀ (l : List ℕ) (d : List ℕ), (l.foldl bumpDeg d).length = d.length
  | [], _ => rfl
  | t :: ts, d => by
    simp only [List.foldl_cons]
    rw [length_foldl_bumpDeg ts, length_bumpDeg]

/-- Folding the clique's double bumps adds each node's stub-occurrence count,
provided all stub components are in range. -/
theorem getD_foldl_bump2 :
    ∀ (l : List (ℕ × ℕ)) (d : List ℕ) (x : ℕ),
      (∀ p ∈ l, p.1 < d.length ∧ p.2 < d.length) →
      (l.foldl (fun d p => bumpDeg (bumpDeg d p.1) p.2) d).getD x 0 = d.getD x 0 + stubOcc x l
  | [], _, _, _ => by simp [stubOcc]
  | p :: ps, d, x, hb => by
    have hp := hb p (List.mem_cons_self p ps)
    have hb' : ∀ q ∈ ps, q.1 < (bumpDeg (bumpDeg d p.1) p.2).length ∧
        q.2 < (bumpDeg (bumpDeg d p.1) p.2).length := by
      intro q hq
      rw [length_bumpDeg, length_bumpDeg]
      exact hb q (List.mem_cons_of_mem p hq)
    simp only [List.foldl_cons]
    rw [getD_foldl_bump2 ps _ x hb', getD_bumpDeg, getD_bumpDeg, length_bumpDeg]
    unfold stubOcc
    rw [List.countP_cons, List.countP_cons]
    simp only [and_iff_left hp.1, and_iff_left hp.2, decide_eq_true_eq]
    split_ifs <;> omega

/-- Folding the clique's double bumps preserves the array length. -/
theorem length_foldl_bump2 :
    ∀ (l : List (ℕ × ℕ)) (d : List ℕ),
      (l.foldl (fun d p => bumpDeg (bumpDeg d p.1) p.2) d).length = d.length
  | [], _ => rfl
  | p :: ps, d => by
    simp only [List.foldl_cons]
    rw [length_foldl_bump2 ps, length_bumpDeg, length_bumpDeg]

/-- The degree array keeps its allocated size `n`. -/
theorem initDeg_length (n m : ℕ) : (initDeg n m).length = n := by
  unfold initDeg
  rw [length_foldl_bump2]
  exact List.length_replicate ..

/-- An all-zero array reads zero everywhere. -/
theorem getD_replicate_zero (n x : ℕ) : (List.replicate n (0 : ℕ)).getD x 0 = 0 := by
  by_cases h : x < n
  · rw [List.getD_eq_getElem _ _ (by simpa using h)]
    exact List.getElem_replicate ..
  · rw [List.getD_eq_default]
    simp
    omega

/-- The initial degree of a node is its occurrence count in the clique stubs. -/
theorem getD_initDeg {n m : ℕ} (h : m < n) (x : ℕ) :
    (initDeg n m).getD x 0 = stubOcc x (cliqueStubs (m + 1)) := by
  unfold initDeg
  have hb : ∀ p ∈ cliqueStubs (m + 1),
      p.1 < (List.replicate n (0 : ℕ)).length ∧ p.2 < (List.replicate n (0 : ℕ)).length := by
    intro p hp
    have := mem_cliqueStubs hp
    simp only [List.length_replicate]
    omega
  rw [getD_foldl_bump2 _ _ _ hb, getD_replicate_zero, Nat.zero_add]

/-- Nodes outside the clique start with degree zero. -/
theorem getD_initDeg_zero {n m x : ℕ} (h : m < n) (hx : m + 1 ≤ x) :
    (initDeg n m).getD x 0 = 0 := by
  rw [getD_initDeg h]
  unfold stubOcc
  have h1 : (cliqueStubs (m + 1)).countP (fun p => p.1 = x) = 0 := by
    rw [List.countP_eq_zero]
    intro p hp
    have := mem_cliqueStubs hp
    simp
    omega
  have h2 : (cliqueStubs (m + 1)).countP (fun p => p.2 = x) = 0 := by
    rw [List.countP_eq_zero]
    intro p hp
    have := mem_cliqueStubs hp
    simp
    omega
  omega

/-- Counting in a flatMap of per-node replicates over distinct nodes. -/
theorem count_flatMap_replicate (d : List ℕ) :
    ∀ (l : List ℕ), l.Nodup → ∀ x : ℕ,
      (l.flatMap (fun nd => List.replicate (d.getD nd 0) nd)).count x =
        if x ∈ l then d.getD x 0 else 0
  | [], _, x => by simp
  | a :: t, hnd, x => by
    rcases List.nodup_cons.1 hnd with ⟨ha, ht⟩
    rw [List.flatMap_cons, List.count_append, List.count_replicate,
      count_flatMap_replicate d t ht x]
    by_cases hax : a = x
    · subst hax
      simp [ha]
    · by_cases hxt : x ∈ t <;> simp [hax, hxt, Ne.symm hax]

/-- Each node occurs in the seeded reservoir exactly its initial degree. -/
theorem count_initReservoir (d : List ℕ) (initNodes x : ℕ) :
    (initReservoir d initNodes).count x = if x < initNodes then d.getD x 0 else 0 := by
  unfold initReservoir
  rw [count_flatMap_replicate d _ (List.nodup_range initNodes) x]
  simp [List.mem_range]

/-- Every entry of the seeded reservoir is an initial-clique node. -/
theorem mem_initReservoir {d : List ℕ} {initNodes v : ℕ}
    (h : v ∈ initReservoir d initNodes) : v < initNodes := by
  unfold initReservoir at h
  rcases List.mem_flatMap.1 h with ⟨nd, hnd, hv⟩
  rcases (List.mem_replicate.1 hv) with ⟨_, rfl⟩
  exact List.mem_range.1 hnd

/-- The seeded reservoir length is the sum of the initial degrees. -/
theorem length_initReservoir (d : List ℕ) (initNodes : ℕ) :
    (initReservoir d initNodes).length = ∑ nd ∈ Finset.range initNodes, d.getD nd 0 := by
  unfold initReservoir
  rw [List.length_flatMap]
  have h1 : List.map (List.length ∘ fun nd => List.replicate (d.getD nd 0) nd)
      (List.range initNodes) = List.map (fun nd => d.getD nd 0) (List.range initNodes) := by
    apply List.map_congr_left
    intro a _
    simp
  rw [h1, listSumRange]

/-- Summing stub occurrences over all nodes counts every stub twice. -/
theorem sum_range_stubOcc {K : ℕ} :
    ∀ (l : List (ℕ × ℕ)), (∀ p ∈ l, p.1 < K ∧ p.2 < K) →
      ∑ x ∈ Finset.range K, stubOcc x l = 2 * l.length
  | [], _ => by simp [stubOcc]
  | p :: ps, hb => by
    have hp := hb p (List.mem_cons_self p ps)
    have hps : ∀ q ∈ ps, q.1 < K ∧ q.2 < K := fun q hq => hb q (List.mem_cons_of_mem p hq)
    have hexp : ∀ x, stubOcc x (p :: ps) =
        stubOcc x ps + ((if p.1 = x then 1 else 0) + (if p.2 = x then 1 else 0)) := by
      intro x
      unfold stubOcc
      rw [List.countP_cons, List.countP_cons]
      simp only [decide_eq_true_eq]
      split_ifs <;> omega
    rw [Finset.sum_congr rfl (fun x _ => hexp x), Finset.sum_add_distrib,
      sum_range_stubOcc ps hps, Finset.sum_add_distrib, Finset.sum_ite_eq,
      Finset.sum_ite_eq]
    simp only [Finset.mem_range, hp.1, hp.2, if_pos, List.length_cons]
    omega

/-- The seeded reservoir holds `2 * initial_edges` entries: one per degree
unit of the initial clique. -/
theorem initReservoir_length_eq {n m : ℕ} (h : m < n) :
    (initReservoir (initDeg n m) (m + 1)).length = 2 * (cliqueStubs (m + 1)).length := by
  rw [length_initReservoir]
  rw [Finset.sum_congr rfl (fun x _ => getD_initDeg h x)]
  refine sum_range_stubOcc _ ?_
  intro p hp
  have := mem_cliqueStubs hp
  omega

/-- Unfolding one more growth iteration. -/
theorem stateAfter_succ (n m : ℕ) (oracle : ℕ → List ℕ) (k : ℕ) :
    stateAfter n m oracle (k + 1) =
      growStep m (stateAfter n m oracle k) (m + 1 + k) (oracle (m + 1 + k)) := by
  unfold stateAfter
  rw [List.range'_concat, List.foldl_append]
  simp

/-- Sampled targets stay below any strict upper bound of the reservoir
(out-of-range positions read the default `0`, also below the bound). -/
theorem mem_sampleTargets_lt {res idxs : List ℕ} {bound : ℕ}
    (hres : ∀ v ∈ res, v < bound) (hpos : 0 < bound) :
    ∀ t ∈ sampleTargets res idxs, t < bound := by
  intro t ht
  unfold sampleTargets at ht
  rcases List.mem_map.1 ht with ⟨i, _, rfl⟩
  by_cases h : i < res.length
  · rw [List.getD_eq_getElem _ _ h]
    exact hres _ (List.getElem_mem h)
  · rw [List.getD_eq_default _ _ (Nat.le_of_not_lt h)]
    exact hpos

/-- One draw yields one target per drawn position. -/
theorem length_sampleTargets (res idxs : List ℕ) :
    (sampleTargets res idxs).length = idxs.length :=
  List.length_map _ _

/-- One growth iteration preserves the loop invariant: the degree array keeps
size `n`, reservoir entries stay below the next node id, reservoir
multiplicities track degrees, stubs stay self-loop-free, the reservoir never
shrinks, and the fallback branch stays untaken. -/
theorem growStep_invariant {m n v : ℕ} {s : BAState} (idxs : List ℕ)
    (hdeg : s.deg.length = n) (hub : ∀ w ∈ s.reservoir, w < v) (hvn : v < n)
    (hv0 : 0 < v)
    (hcount : ∀ x, s.reservoir.count x = s.deg.getD x 0)
    (hstub : ∀ p ∈ s.stubs, p.1 ≠ p.2)
    (hlen : 2 * (cliqueStubs (m + 1)).length ≤ s.reservoir.length)
    (hfb : s.fallback = false)
    (hm_le : m ≤ s.reservoir.length) :
    (growStep m s v idxs).deg.length = n ∧
    (∀ w ∈ (growStep m s v idxs).reservoir, w < v + 1) ∧
    (∀ x, (growStep m s v idxs).reservoir.count x = (growStep m s v idxs).deg.getD x 0) ∧
    (∀ p ∈ (growStep m s v idxs).stubs, p.1 ≠ p.2) ∧
    2 * (cliqueStubs (m + 1)).length ≤ (growStep m s v idxs).reservoir.length ∧
    (growStep m s v idxs).fallback = false := by
  have htg : ∀ t ∈ sampleTargets s.reservoir idxs, t < v := mem_sampleTargets_lt hub hv0
  refine ⟨?_, ?_, ?_, ?_, ?_, ?_⟩
  · simp only [growStep]
    rw [length_foldl_bumpDeg, List.length_set, hdeg]
  · simp only [growStep]
    intro w hw
    rcases List.mem_append.1 hw with hw' | hw'
    · rcases List.mem_append.1 hw' with hw'' | hw''
      · exact Nat.lt_succ_of_lt (hub w hw'')
      · rcases List.mem_replicate.1 hw'' with ⟨_, rfl⟩
        exact Nat.lt_succ_self _
    · exact Nat.lt_succ_of_lt (htg w hw')
  · simp only [growStep]
    intro x
    have hbound : ∀ t ∈ sampleTargets s.reservoir idxs, t < (s.deg.set v m).length := by
      intro t ht
      rw [List.length_set, hdeg]
      exact lt_trans (htg t ht) hvn
    rw [List.count_append, List.count_append, List.count_replicate,
      getD_foldl_bumpDeg _ _ _ hbound]
    by_cases hxv : v = x
    · subst hxv
      have h1 : s.reservoir.count v = 0 :=
        List.count_eq_zero.2 (fun hc => lt_irrefl v (hub v hc))
      have h2 : (sampleTargets s.reservoir idxs).count v = 0 :=
        List.count_eq_zero.2 (fun hc => lt_irrefl v (htg v hc))
      rw [h1, h2, getD_set_self (by rw [hdeg]; exact hvn)]
      simp
    · rw [getD_set_ne hxv, ← hcount x]
      simp [hxv]
  · simp only [growStep]
    intro p hp
    rcases List.mem_append.1 hp with hp' | hp'
    · exact hstub p hp'
    · rcases List.mem_map.1 hp' with ⟨t, ht, rfl⟩
      exact Ne.symm (Nat.ne_of_lt (htg t ht))
  · simp only [growStep]
    rw [List.length_append, List.length_append]
    omega
  · simp only [growStep]
    rw [hfb]
    simp [hm_le]

/-- The seeded reservoir size, `2 * initial_edges = (m+1) * m`. -/
theorem cliqueStubs_length_succ (m : ℕ) :
    2 * (cliqueStubs (m + 1)).length = (m + 1) * m := by
  have h := cliqueStubs_length_mul_two (m + 1)
  simpa using h

/-- The growth-loop invariant holds at the start of every iteration and after
the last: the degree array keeps size `n`; every reservoir entry is an
already-grown node (below the next node id); each node occurs in the filled
reservoir prefix exactly `deg[x]` times; all stubs are self-loop-free; the
reservoir never shrinks below its seeded `2 * initial_edges` entries; and the
sample-with-replacement fallback branch is never taken. -/
theorem stateAfter_invariant (n m : ℕ) (oracle : ℕ → List ℕ) (hmn : m + 1 ≤ n) :
    ∀ k, k ≤ n - (m + 1) →
      (stateAfter n m oracle k).deg.length = n ∧
      (∀ w ∈ (stateAfter n m oracle k).reservoir, w < m + 1 + k) ∧
      (∀ x, (stateAfter n m oracle k).reservoir.count x =
        (stateAfter n m oracle k).deg.getD x 0) ∧
      (∀ p ∈ (stateAfter n m oracle k).stubs, p.1 ≠ p.2) ∧
      2 * (cliqueStubs (m + 1)).length ≤ (stateAfter n m oracle k).reservoir.length ∧
      (stateAfter n m oracle k).fallback = false
  | 0, _ => by
    have hmlt : m < n := by omega
    have h0 : stateAfter n m oracle 0 = initState n m := rfl
    rw [h0]
    simp only [initState]
    refine ⟨initDeg_length n m, ?_, ?_, ?_, ?_, by trivial⟩
    · intro w hw
      have := mem_initReservoir hw
      omega
    · intro x
      rw [count_initReservoir]
      by_cases hx : x < m + 1
      · rw [if_pos hx]
      · rw [if_neg hx, getD_initDeg_zero hmlt (by omega)]
    · intro p hp
      exact Nat.ne_of_lt (mem_cliqueStubs hp).1
    · rw [initReservoir_length_eq hmlt]
  | k + 1, hk => by
    obtain ⟨hdeg, hub, hcount, hstub, hlen, hfb⟩ :=
      stateAfter_invariant n m oracle hmn k (by omega)
    have hm_le : m ≤ (stateAfter n m oracle k).reservoir.length := by
      have ha : m ≤ (m + 1) * m := Nat.le_mul_of_pos_left m (Nat.succ_pos m)
      rw [← cliqueStubs_length_succ m] at ha
      exact le_trans ha hlen
    have hvn : m + 1 + k < n := by omega
    obtain ⟨h1, h2, h3, h4, h5, h6⟩ :=
      growStep_invariant (m := m) (n := n) (v := m + 1 + k) (oracle (m + 1 + k))
        hdeg hub hvn (by omega) hcount hstub hlen hfb hm_le
    rw [stateAfter_succ]
    refine ⟨h1, ?_, h3, h4, h5, h6⟩
    intro w hw
    have := h2 w hw
    omega

/-- Total stub count: the clique's stubs plus `m` per completed iteration
(when every draw has the source's `size=m`). -/
theorem stateAfter_stubs_length (n m : ℕ) (oracle : ℕ → List ℕ)
    (hsz : ∀ v, (oracle v).length = m) :
    ∀ k, (stateAfter n m oracle k).stubs.length = (cliqueStubs (m + 1)).length + k * m
  | 0 => by
    have h0 : stateAfter n m oracle 0 = initState n m := rfl
    rw [h0]
    simp [initState]
  | k + 1 => by
    rw [stateAfter_succ]
    simp only [growStep]
    rw [List.length_append, List.length_map, length_sampleTargets, hsz,
      stateAfter_stubs_length n m oracle hsz k]
    ring

/-- Position-indexed occurrence counting: scanning all positions of `res` for
value `x` counts exactly the occurrences of `x`. -/
theorem countP_range_getD :
    ∀ (res : List ℕ) (x : ℕ),
      (List.range res.length).countP (fun i => res.getD i 0 == x) = res.count x
  | [], x => by simp
  | a :: rs, x => by
    rw [List.length_cons, List.range_succ_eq_map, List.countP_cons, List.countP_map]
    have hcomp : ((fun i => (a :: rs).getD i 0 == x) ∘ Nat.succ) =
        (fun i => rs.getD i 0 == x) := by
      funext i
      simp [List.getD_cons_succ]
    rw [hcomp, countP_range_getD rs x, List.count_cons]
    simp [List.getD_cons_zero]

/-- Sampling at pairwise-distinct in-range positions returns each value at
most as often as it occurs in the reservoir prefix: a node can be drawn at
most once per degree unit it holds. -/
theorem count_sampleTargets_le {res idxs : List ℕ} {x : ℕ}
    (hnd : idxs.Nodup) (hbound : ∀ i ∈ idxs, i < res.length) :
    (sampleTargets res idxs).count x ≤ res.count x := by
  unfold sampleTargets
  rw [List.count_eq_countP, List.countP_map]
  have hcomp : ((fun v => v == x) ∘ (fun i => res.getD i 0)) =
      (fun i => res.getD i 0 == x) := rfl
  rw [hcomp, List.countP_eq_length_filter, ← countP_range_getD res x,
    List.countP_eq_length_filter]
  have hnd' := hnd.filter (fun i => res.getD i 0 == x)
  have hsub : ∀ i ∈ idxs.filter (fun i => res.getD i 0 == x),
      i ∈ (List.range res.length).filter (fun i => res.getD i 0 == x) := by
    intro i hi
    rcases List.mem_filter.1 hi with ⟨hi1, hi2⟩
    exact List.mem_filter.2 ⟨List.mem_range.2 (hbound i hi1), hi2⟩
  calc (idxs.filter (fun i => res.getD i 0 == x)).length
      = (idxs.filter (fun i => res.getD i 0 == x)).toFinset.card :=
        (List.toFinset_card_of_nodup hnd').symm
    _ ≤ ((List.range res.length).filter (fun i => res.getD i 0 == x)).toFinset.card :=
        Finset.card_le_card (fun i hi => List.mem_toFinset.2 (hsub i (List.mem_toFinset.1 hi)))
    _ ≤ ((List.range res.length).filter (fun i => res.getD i 0 == x)).length :=
        List.toFinset_card_le _

/-- C1: for every valid input (`node_count > m`, `m = max(1, average_friends // 2)`),
the canonical edge sequence written to the edge table satisfies: the builder
succeeds, every row has `low < high`, the rows are strictly ascending in the
lexicographic `(low, high)` order, and no two rows are equal. -/
theorem claim1_canonical_edges (n avgFriends : ℕ) (oracle : ℕ → List ℕ)
    (h : emm avgFriends < n) :
    fastBA n (emm avgFriends) oracle = .ok (buildBA n (emm avgFriends) oracle) ∧
    (∀ p ∈ canonicalize (buildBA n (emm avgFriends) oracle).stubs, p.1 < p.2) ∧
    List.Pairwise LexLt (canonicalize (buildBA n (emm avgFriends) oracle).stubs) ∧
    List.Pairwise (· ≠ ·) (canonicalize (buildBA n (emm avgFriends) oracle).stubs) := by
  refine ⟨?_, fun p hp => mem_canonicalize_lt hp, canonicalize_sorted _,
    (canonicalize_sorted _).imp (fun hpq => lexLt_ne hpq)⟩
  unfold fastBA
  rw [if_neg (by omega)]

theorem claim1_canonical_edges_witness :
    emm 4 < 3 ∧
    (fastBA 3 (emm 4) (fun _ => []) = .ok (buildBA 3 (emm 4) (fun _ => [])) ∧
      (∀ p ∈ canonicalize (buildBA 3 (emm 4) (fun _ => [])).stubs, p.1 < p.2) ∧
      List.Pairwise LexLt (canonicalize (buildBA 3 (emm 4) (fun _ => [])).stubs) ∧
      List.Pairwise (· ≠ ·) (canonicalize (buildBA 3 (emm 4) (fun _ => [])).stubs)) :=
  ⟨by decide, claim1_canonical_edges 3 4 (fun _ => []) (by decide)⟩

/-- C2 counterexample: at the first growth step for `node_count=4,
average_friends=4` (`m=2`) the filled reservoir is `[0,0,1,1,2,2]`, so
`r = 6 ≥ m = 2` and the without-replacement branch is taken; drawing the two
distinct positions `0` and `1` is a valid without-replacement draw, yet the
returned targets are `[0,0]` — the same node twice, refuting pairwise
distinctness of the returned identifiers. -/
theorem claim2_counterexample :
    ValidDraw 2 (initState 4 2).reservoir.length [0, 1] ∧
    2 ≤ (initState 4 2).reservoir.length ∧
    sampleTargets (initState 4 2).reservoir [0, 1] = [0, 0] ∧
    ¬ List.Pairwise (· ≠ ·) (sampleTargets (initState 4 2).reservoir [0, 1]) := by
  decide

/-- C2 (amended): when `r ≥ m`, a valid draw consists of `m` pairwise
distinct reservoir *positions*; the `m` returned node identifiers need not
be pairwise distinct, but each node is returned at most as many times as it
occurs in the filled reservoir prefix (its current degree). -/
theorem claim2_amended {m : ℕ} (res idxs : List ℕ) (x : ℕ)
    (hr : m ≤ res.length) (hvd : ValidDraw m res.length idxs) :
    (sampleTargets res idxs).length = m ∧ idxs.Nodup ∧
    (sampleTargets res idxs).count x ≤ res.count x := by
  obtain ⟨hlen, hbound, hnd⟩ := hvd
  exact ⟨by rw [length_sampleTargets, hlen], hnd hr,
    count_sampleTargets_le (hnd hr) hbound⟩

theorem claim2_amended_witness :
    2 ≤ (initState 4 2).reservoir.length ∧
    ValidDraw 2 (initState 4 2).reservoir.length [0, 1] ∧
    ((sampleTargets (initState 4 2).reservoir [0, 1]).length = 2 ∧
      ([0, 1] : List ℕ).Nodup ∧
      (sampleTargets (initState 4 2).reservoir [0, 1]).count 0 ≤
        (initState 4 2).reservoir.count 0) :=
  ⟨by decide, by decide,
    claim2_amended (initState 4 2).reservoir [0, 1] 0 (by decide) (by decide)⟩

/-- C3: with the random source modelled as explicit input streams, the
generator is a pure function of `(node_count, average_friends, streams)`:
the same seed (same streams) and same inputs reproduce the identical
directed-stub sequence and the identical edge-table write trace. -/
theorem claim3_determinism (n avgFriends chunkSize : ℕ)
    (oracle1 oracle2 : ℕ → List ℕ) (dateOracle1 dateOracle2 : ℕ → ℕ)
    (ho : oracle1 = oracle2) (hd : dateOracle1 = dateOracle2) :
    (buildBA n (emm avgFriends) oracle1).stubs =
      (buildBA n (emm avgFriends) oracle2).stubs ∧
    generateAndSave n avgFriends chunkSize oracle1 dateOracle1 =
      generateAndSave n avgFriends chunkSize oracle2 dateOracle2 := by
  subst ho
  subst hd
  exact ⟨rfl, rfl⟩

theorem claim3_determinism_witness :
    (buildBA 4 (emm 4) (fun _ => [0, 1])).stubs =
      (buildBA 4 (emm 4) (fun _ => [0, 1])).stubs ∧
    generateAndSave 4 4 2 (fun _ => [0, 1]) (fun i => i) =
      generateAndSave 4 4 2 (fun _ => [0, 1]) (fun i => i) :=
  claim3_determinism 4 4 2 (fun _ => [0, 1]) (fun _ => [0, 1]) (fun i => i) (fun i => i)
    rfl rfl

/-- C4: generation fails with the configuration error exactly when
`node_count ≤ m` (`m = max(1, average_friends // 2)`), and the failure
propagates before any construction output or write event is produced; in
particular `node_count=2, average_friends=4` fails. -/
theorem claim4_configuration_error (n avgFriends chunkSize : ℕ)
    (oracle : ℕ → List ℕ) (dateOracle : ℕ → ℕ) :
    (fastBA n (emm avgFriends) oracle = .error "n must be > m" ↔ n ≤ emm avgFriends) ∧
    (n ≤ emm avgFriends →
      generateAndSave n avgFriends chunkSize oracle dateOracle =
        .error "n must be > m") ∧
    fastBA 2 (emm 4) oracle = .error "n must be > m" := by
  refine ⟨⟨?_, ?_⟩, ?_, ?_⟩
  · intro h
    by_contra hc
    unfold fastBA at h
    rw [if_neg hc] at h
    exact Except.noConfusion h
  · intro h
    unfold fastBA
    rw [if_pos h]
  · intro h
    unfold generateAndSave fastBA
    rw [if_pos h]
  · unfold fastBA
    rw [if_pos (by decide)]

theorem claim4_configuration_error_witness :
    (fastBA 2 (emm 4) (fun _ => []) = .error "n must be > m" ↔ 2 ≤ emm 4) ∧
    (2 ≤ emm 4 →
      generateAndSave 2 4 5 (fun _ => []) (fun i => i) = .error "n must be > m") ∧
    fastBA 2 (emm 4) (fun _ => []) = .error "n must be > m" :=
  claim4_configuration_error 2 4 5 (fun _ => []) (fun i => i)

/-- C5: for every valid input (with the source's `size=m` draws), the unique
canonical edge count is at most `m` per grown node plus the
`m*(m+1)/2` initial clique edges. -/
theorem claim5_edge_bound (n avgFriends : ℕ) (oracle : ℕ → List ℕ)
    (_h : emm avgFriends < n) (hsz : ∀ v, (oracle v).length = emm avgFriends) :
    (canonicalize (buildBA n (emm avgFriends) oracle).stubs).length ≤
      emm avgFriends * (n - (emm avgFriends + 1)) +
        emm avgFriends * (emm avgFriends + 1) / 2 := by
  have h1 : (canonicalize (buildBA n (emm avgFriends) oracle).stubs).length ≤
      (buildBA n (emm avgFriends) oracle).stubs.length := canonicalize_length_le _
  have h2 : (buildBA n (emm avgFriends) oracle).stubs.length =
      (cliqueStubs (emm avgFriends + 1)).length +
        (n - (emm avgFriends + 1)) * emm avgFriends :=
    stateAfter_stubs_length n (emm avgFriends) oracle hsz (n - (emm avgFriends + 1))
  have h3 : 2 * (cliqueStubs (emm avgFriends + 1)).length =
      (emm avgFriends + 1) * emm avgFriends := cliqueStubs_length_succ (emm avgFriends)
  have h4 : (n - (emm avgFriends + 1)) * emm avgFriends =
      emm avgFriends * (n - (emm avgFriends + 1)) := Nat.mul_comm _ _
  have h5 : (emm avgFriends + 1) * emm avgFriends =
      emm avgFriends * (emm avgFriends + 1) := Nat.mul_comm _ _
  omega

theorem claim5_edge_bound_witness :
    emm 4 < 4 ∧ (∀ v : ℕ, ((fun _ => [0, 1]) v : List ℕ).length = emm 4) ∧
    (canonicalize (buildBA 4 (emm 4) (fun _ => [0, 1])).stubs).length ≤
      emm 4 * (4 - (emm 4 + 1)) + emm 4 * (emm 4 + 1) / 2 :=
  ⟨by decide, fun _ => rfl,
    claim5_edge_bound 4 4 (fun _ => [0, 1]) (by decide) (fun _ => rfl)⟩

/-- C6: when `node_count = m + 1`, construction succeeds, the growth loop
runs zero iterations, and the canonical edge set is exactly the
`m*(m+1)/2` initial-clique edges; for `node_count=3, average_friends=4`
these are `(0,1), (0,2), (1,2)`. -/
theorem claim6_clique_only (n avgFriends : ℕ) (oracle : ℕ → List ℕ)
    (h : n = emm avgFriends + 1) :
    fastBA n (emm avgFriends) oracle = .ok (initState n (emm avgFriends)) ∧
    growthNodes n (emm avgFriends) = [] ∧
    canonicalize (buildBA n (emm avgFriends) oracle).stubs =
      cliqueStubs (emm avgFriends + 1) ∧
    (cliqueStubs (emm avgFriends + 1)).length =
      emm avgFriends * (emm avgFriends + 1) / 2 ∧
    canonicalize (buildBA 3 (emm 4) (fun _ => [])).stubs = [(0, 1), (0, 2), (1, 2)] := by
  have hz : n - (emm avgFriends + 1) = 0 := by omega
  have hbuild : buildBA n (emm avgFriends) oracle = initState n (emm avgFriends) := by
    unfold buildBA stateAfter
    rw [hz]
    rfl
  refine ⟨?_, ?_, ?_, ?_, ?_⟩
  · unfold fastBA
    rw [if_neg (by omega), hbuild]
  · unfold growthNodes
    rw [hz]
    rfl
  · rw [hbuild]
    show canonicalize (cliqueStubs (emm avgFriends + 1)) = cliqueStubs (emm avgFriends + 1)
    exact canonicalize_cliqueStubs (emm avgFriends + 1)
  · have h3 := cliqueStubs_length_succ (emm avgFriends)
    have h5 : (emm avgFriends + 1) * emm avgFriends =
        emm avgFriends * (emm avgFriends + 1) := Nat.mul_comm _ _
    omega
  · have hb : buildBA 3 (emm 4) (fun _ => []) = initState 3 (emm 4) := rfl
    rw [hb]
    show canonicalize (cliqueStubs (emm 4 + 1)) = [(0, 1), (0, 2), (1, 2)]
    rw [canonicalize_cliqueStubs]
    decide

theorem claim6_clique_only_witness :
    3 = emm 4 + 1 ∧
    (fastBA 3 (emm 4) (fun _ => []) = .ok (initState 3 (emm 4)) ∧
      growthNodes 3 (emm 4) = [] ∧
      canonicalize (buildBA 3 (emm 4) (fun _ => [])).stubs = cliqueStubs (emm 4 + 1) ∧
      (cliqueStubs (emm 4 + 1)).length = emm 4 * (emm 4 + 1) / 2 ∧
      canonicalize (buildBA 3 (emm 4) (fun _ => [])).stubs = [(0, 1), (0, 2), (1, 2)]) :=
  ⟨by decide, claim6_clique_only 3 4 (fun _ => []) (by decide)⟩

/-- C7: on success the write trace is the `friendships.csv` chunk writes
followed by exactly one metadata write, performed last; the metadata record
holds exactly the node count, the unique canonical edge count `E`, and
average degree `2 * E / n`. -/
theorem claim7_metadata (n avgFriends chunkSize : ℕ) (oracle : ℕ → List ℕ)
    (dateOracle : ℕ → ℕ) (h : emm avgFriends < n) :
    ∃ events : List WriteEvent,
      generateAndSave n avgFriends chunkSize oracle dateOracle =
        .ok (events ++ [WriteEvent.metadataWrite
            { num_users := n
              num_friendships :=
                (canonicalize (buildBA n (emm avgFriends) oracle).stubs).length
              avg_degree := 2 *
                ((canonicalize (buildBA n (emm avgFriends) oracle).stubs).length : ℚ) /
                  (n : ℚ) }],
          { num_users := n
            num_friendships :=
              (canonicalize (buildBA n (emm avgFriends) oracle).stubs).length
            avg_degree := 2 *
              ((canonicalize (buildBA n (emm avgFriends) oracle).stubs).length : ℚ) /
                (n : ℚ) }) ∧
      ∀ e ∈ events, ∃ rows, e = WriteEvent.chunk rows := by
  refine ⟨(chunkSplit chunkSize
      ((canonicalize (buildBA n (emm avgFriends) oracle).stubs).enum.map
        (fun ip => (ip.2.1, ip.2.2, dateOracle ip.1)))).map WriteEvent.chunk, ?_, ?_⟩
  · unfold generateAndSave fastBA
    rw [if_neg (by omega)]
  · intro e he
    rcases List.mem_map.1 he with ⟨rows, _, rfl⟩
    exact ⟨rows, rfl⟩

theorem claim7_metadata_witness :
    emm 4 < 3 ∧
    (∃ events : List WriteEvent,
      generateAndSave 3 4 2 (fun _ => []) (fun i => i) =
        .ok (events ++ [WriteEvent.metadataWrite
            { num_users := 3
              num_friendships :=
                (canonicalize (buildBA 3 (emm 4) (fun _ => [])).stubs).length
              avg_degree := 2 *
                ((canonicalize (buildBA 3 (emm 4) (fun _ => [])).stubs).length : ℚ) /
                  ((3 : ℕ) : ℚ) }],
          { num_users := 3
            num_friendships :=
              (canonicalize (buildBA 3 (emm 4) (fun _ => [])).stubs).length
            avg_degree := 2 *
              ((canonicalize (buildBA 3 (emm 4) (fun _ => [])).stubs).length : ℚ) /
                ((3 : ℕ) : ℚ) }) ∧
      ∀ e ∈ events, ∃ rows, e = WriteEvent.chunk rows) :=
  ⟨by decide, claim7_metadata 3 4 2 (fun _ => []) (fun i => i) (by decide)⟩

/-- C8: every stub the builder produces (clique and growth) has distinct
endpoints, so the canonicalizer's defensive self-loop mask removes nothing:
filtering is the identity on the canonicalized pair list. -/
theorem claim8_no_self_loops (n avgFriends : ℕ) (oracle : ℕ → List ℕ)
    (h : emm avgFriends < n) :
    (∀ p ∈ (buildBA n (emm avgFriends) oracle).stubs, p.1 ≠ p.2) ∧
    maskPairs (canonPairs (buildBA n (emm avgFriends) oracle).stubs) =
      canonPairs (buildBA n (emm avgFriends) oracle).stubs := by
  obtain ⟨_, _, _, hstub, _, _⟩ :=
    stateAfter_invariant n (emm avgFriends) oracle (by omega)
      (n - (emm avgFriends + 1)) (le_refl _)
  refine ⟨hstub, ?_⟩
  unfold maskPairs
  rw [List.filter_eq_self]
  intro p hp
  unfold canonPairs at hp
  rcases List.mem_map.1 hp with ⟨q, hq, rfl⟩
  have hne : q.1 ≠ q.2 := hstub q hq
  have hmm : min q.1 q.2 ≠ max q.1 q.2 := by omega
  simp [hmm]

theorem claim8_no_self_loops_witness :
    emm 4 < 4 ∧
    ((∀ p ∈ (buildBA 4 (emm 4) (fun _ => [0, 1])).stubs, p.1 ≠ p.2) ∧
      maskPairs (canonPairs (buildBA 4 (emm 4) (fun _ => [0, 1])).stubs) =
        canonPairs (buildBA 4 (emm 4) (fun _ => [0, 1])).stubs) :=
  ⟨by decide, claim8_no_self_loops 4 4 (fun _ => [0, 1]) (by decide)⟩

/-- C9: the degree-reservoir invariant: at the start of every growth
iteration and after the final one, every node occurs in the filled reservoir
prefix exactly `deg[x]` times — proved with no distinctness assumption on
the draws, so it holds even when a step's target list repeats a node. -/
theorem claim9_reservoir_degree (n avgFriends : ℕ) (oracle : ℕ → List ℕ)
    (h : emm avgFriends < n) (k : ℕ) (hk : k ≤ n - (emm avgFriends + 1)) (x : ℕ) :
    (stateAfter n (emm avgFriends) oracle k).reservoir.count x =
      (stateAfter n (emm avgFriends) oracle k).deg.getD x 0 := by
  obtain ⟨_, _, hcount, _, _, _⟩ :=
    stateAfter_invariant n (emm avgFriends) oracle (by omega) k hk
  exact hcount x

theorem claim9_reservoir_degree_witness :
    emm 4 < 4 ∧ 1 ≤ 4 - (emm 4 + 1) ∧
    (stateAfter 4 (emm 4) (fun _ => [0, 0]) 1).reservoir.count 0 =
      (stateAfter 4 (emm 4) (fun _ => [0, 0]) 1).deg.getD 0 0 :=
  ⟨by decide, by decide, claim9_reservoir_degree 4 4 (fun _ => [0, 0]) (by decide)
    1 (by decide) 0⟩

/-- C10: for every valid input the reservoir fill pointer is at least
`m*(m+1) ≥ m` at the start of every growth iteration and at the end, so the
degraded sample-with-replacement fallback branch is never executed. -/
theorem claim10_no_fallback (n avgFriends : ℕ) (oracle : ℕ → List ℕ)
    (h : emm avgFriends < n) (k : ℕ) (hk : k ≤ n - (emm avgFriends + 1)) :
    emm avgFriends * (emm avgFriends + 1) ≤
      (stateAfter n (emm avgFriends) oracle k).reservoir.length ∧
    emm avgFriends ≤ (stateAfter n (emm avgFriends) oracle k).reservoir.length ∧
    (stateAfter n (emm avgFriends) oracle k).fallback = false ∧
    (buildBA n (emm avgFriends) oracle).fallback = false := by
  obtain ⟨_, _, _, _, hlen, hfb⟩ :=
    stateAfter_invariant n (emm avgFriends) oracle (by omega) k hk
  obtain ⟨_, _, _, _, _, hfb2⟩ :=
    stateAfter_invariant n (emm avgFriends) oracle (by omega)
      (n - (emm avgFriends + 1)) (le_refl _)
  have h3 := cliqueStubs_length_succ (emm avgFriends)
  have h5 : (emm avgFriends + 1) * emm avgFriends =
      emm avgFriends * (emm avgFriends + 1) := Nat.mul_comm _ _
  have hx : emm avgFriends ≤ emm avgFriends * (emm avgFriends + 1) := by
    calc emm avgFriends = emm avgFriends * 1 := (Nat.mul_one _).symm
      _ ≤ emm avgFriends * (emm avgFriends + 1) :=
        Nat.mul_le_mul_left _ (by omega)
  exact ⟨by omega, by omega, hfb, hfb2⟩

theorem claim10_no_fallback_witness :
    emm 4 < 4 ∧ 1 ≤ 4 - (emm 4 + 1) ∧
    (emm 4 * (emm 4 + 1) ≤ (stateAfter 4 (emm 4) (fun _ => [0, 1]) 1).reservoir.length ∧
      emm 4 ≤ (stateAfter 4 (emm 4) (fun _ => [0, 1]) 1).reservoir.length ∧
      (stateAfter 4 (emm 4) (fun _ => [0, 1]) 1).fallback = false ∧
      (buildBA 4 (emm 4) (fun _ => [0, 1])).fallback = false) :=
  ⟨by decide, by decide, claim10_no_fallback 4 4 (fun _ => [0, 1]) (by decide) 1 (by decide)⟩
